import Mathlib

/-!
# audio-chunker: silence parsing, chunk planning and output naming

A shallow embedding of `main.go`.  Timestamps (`float64` in the source) are
modelled as exact rationals, `int` as `Int` with the 64-bit range made explicit
where a `float64` is converted to it.  The external `ffmpeg` processes are not
modelled: what they contribute (the matched lines of stderr, the success or
failure of one cut) enters the definitions as data.
-/

namespace AudioChunker

/-! ## Data model -/

/-- One detected silent region (`type Silence struct`). -/
structure Silence where
  Start : ℚ
  End : ℚ
  Duration : ℚ
deriving DecidableEq

/-- One span of audio to keep (`type Chunk struct`); the source field `end`
is spelled `end_` because `end` is reserved. -/
structure Chunk where
  start : ℚ
  end_ : ℚ
  duration : ℚ
deriving DecidableEq

/-! ## The planning loop of `removeSilence` (lines 221-234) -/

/-- The two variables the first loop of `removeSilence` mutates. -/
structure PlanState where
  chunks : List Chunk
  cursor : ℚ

/-- One iteration of `for _, r := range res`: build `newChunk`, move the
cursor to `r.End`, append `newChunk` when
`float64(newChunk.duration) > float64(minDur)`. -/
def planStep (minDur : Int) (st : PlanState) (r : Silence) : PlanState :=
  let newChunk : Chunk :=
    { start := st.cursor, end_ := r.Start, duration := r.Start - st.cursor }
  let cursor := r.End
  if newChunk.duration > (minDur : ℚ) then
    { chunks := st.chunks ++ [newChunk], cursor := cursor }
  else
    { chunks := st.chunks, cursor := cursor }

/-- The whole first loop, started from `chunks = nil`, `cursor = 0`. -/
def planLoop (minDur : Int) (res : List Silence) : PlanState :=
  res.foldl (planStep minDur) { chunks := [], cursor := 0 }

/-- The slice `chunks` as it stands after the first loop. -/
def keptChunks (minDur : Int) (res : List Silence) : List Chunk :=
  (planLoop minDur res).chunks

/-! ## The extraction loop of `removeSilence` (lines 237-246) -/

/-- The second loop: the spans handed to `chunkAudioSegment`, in call order.
`ok i` tells whether the call made at loop index `i` returns a nil error; on a
non-nil error `log.Fatal` ends the run, so the failing call is the last. -/
def extractLoop (ok : Nat → Bool) (minDur : Int) : Nat → List Chunk → List Chunk
  | _, [] => []
  | i, r :: rest =>
    if r.duration < (minDur : ℚ) then
      extractLoop ok minDur (i + 1) rest
    else if ok i then
      r :: extractLoop ok minDur (i + 1) rest
    else
      [r]

/-- The calls `removeSilence` makes to `chunkAudioSegment` once
`detectSilences` has returned `res`. -/
def extractedSpans (ok : Nat → Bool) (minDur : Int) (res : List Silence) : List Chunk :=
  extractLoop ok minDur 0 (keptChunks minDur res)

/-! ## Reference description of the planner -/

/-- The candidate spans in the words of the specification: the `i`-th runs
from the end of interval `i - 1` (from `0` for the first) to the start of
interval `i`, with the duration recomputed as their difference. -/
def candidateSpans (res : List Silence) : List Chunk :=
  List.zipWith
    (fun (prevEnd : ℚ) (r : Silence) =>
      ({ start := prevEnd, end_ := r.Start, duration := r.Start - prevEnd } : Chunk))
    (0 :: res.map (fun r => r.End)) res

/-- The end timestamp preceding interval `i`: `e_(i-1)`, with `e_0 = 0`. -/
def prevEnd (res : List Silence) : Nat → ℚ
  | 0 => 0
  | i + 1 => ((res.get? i).map (fun r => r.End)).getD 0

/-- The planning loop started from an arbitrary state (the state the loop is
in after some iterations). -/
def planFrom (minDur : Int) (st : PlanState) (res : List Silence) : PlanState :=
  res.foldl (planStep minDur) st

/-- The candidate spans when the cursor stands at `c` instead of `0`. -/
def candidatesFrom (c : ℚ) (res : List Silence) : List Chunk :=
  List.zipWith
    (fun (prevEnd : ℚ) (r : Silence) =>
      ({ start := prevEnd, end_ := r.Start, duration := r.Start - prevEnd } : Chunk))
    (c :: res.map (fun r => r.End)) res

/-- Sorted, non-overlapping intervals lying at or after `c`:
`c ≤ s_1`, `s_i ≤ e_i`, `e_i ≤ s_(i+1)`. -/
def sortedFrom (c : ℚ) : List Silence → Prop
  | [] => True
  | r :: rest => c ≤ r.Start ∧ r.Start ≤ r.End ∧ sortedFrom r.End rest

instance sortedFromDecidable : (c : ℚ) → (res : List Silence) → Decidable (sortedFrom c res)
  | _, [] => isTrue trivial
  | c, r :: rest =>
    have : Decidable (sortedFrom r.End rest) := sortedFromDecidable r.End rest
    inferInstanceAs (Decidable (c ≤ r.Start ∧ r.Start ≤ r.End ∧ sortedFrom r.End rest))

/-! ## The scanner loop of `detectSilences` (lines 53-78) -/

/-- What the two regular expressions yield on one line of stderr.
`startMatch` is `some t` when `silenceStartRe` matches, `t` being the parsed
capture; `endMatch` is `some (end, duration)` when `silenceEndRe` matches.  A
line may match both, one, or neither. -/
structure Line where
  startMatch : Option ℚ
  endMatch : Option (ℚ × ℚ)
deriving DecidableEq

/-- A line matching only the start pattern. -/
def startLine (t : ℚ) : Line := { startMatch := some t, endMatch := none }

/-- A line matching only the end pattern. -/
def endLine (e d : ℚ) : Line := { startMatch := none, endMatch := some (e, d) }

/-- A line matching neither pattern. -/
def otherLine : Line := { startMatch := none, endMatch := none }

/-- The two variables the scanner loop mutates; `currentStart = none` is the
nil pointer. -/
structure ScanState where
  silences : List Silence
  currentStart : Option ℚ
deriving DecidableEq

/-- One iteration of `for scanner.Scan()`: the two `if` statements in order
(they are not exclusive: the second sees the effect of the first). -/
def scanStep (st : ScanState) (line : Line) : ScanState :=
  let st1 : ScanState :=
    match line.startMatch with
    | some start => { silences := st.silences, currentStart := some start }
    | none => st
  match line.endMatch, st1.currentStart with
  | some (e, d), some start =>
    { silences := st1.silences ++ [{ Start := start, End := e, Duration := d }],
      currentStart := none }
  | _, _ => st1

/-- The scanner loop from an arbitrary state. -/
def scanFrom (st : ScanState) (lines : List Line) : ScanState :=
  lines.foldl scanStep st

/-- The scanner loop, started from `silences = nil`, `currentStart = nil`. -/
def scanLoop (lines : List Line) : ScanState :=
  scanFrom { silences := [], currentStart := none } lines

/-- The intervals the scanner loop has collected when the stream ends. -/
def parseLines (lines : List Line) : List Silence :=
  (scanLoop lines).silences

/-- What the external detector process contributes to one call of
`detectSilences`: the errors of `cmd.StderrPipe()`, `cmd.Start()` and
`scanner.Err()` (`none` for nil) and the lines read from stderr.  The error of
`cmd.Wait()` is only printed and is left out. -/
structure Detector where
  pipeErr : Option String
  startErr : Option String
  lines : List Line
  scanErr : Option String

/-- The result of `detectSilences`. -/
def detectSilences (p : Detector) : Except String (List Silence) :=
  match p.pipeErr with
  | some err => Except.error err
  | none =>
    match p.startErr with
    | some err => Except.error err
    | none =>
      let silences := parseLines p.lines
      match p.scanErr with
      | some err => Except.error err
      | none => Except.ok silences

/-! ## Reference notions for the parser -/

/-- A line that matches at least one of the two patterns. -/
def isEvent (l : Line) : Bool := l.startMatch.isSome || l.endMatch.isSome

/-- The well-formed stream of `n` intervals: `start(s_1), end(e_1, d_1), ...`. -/
def alternating : List Silence → List Line
  | [] => []
  | v :: rest => startLine v.Start :: endLine v.End v.Duration :: alternating rest

/-- The timestamp of the most recent start event of a stream, if any. -/
def lastStart (lines : List Line) : Option ℚ :=
  lines.foldl (fun acc l => match l.startMatch with
    | some t => some t
    | none => acc) none

/-- The number of start events of a stream. -/
def startCount (lines : List Line) : Nat :=
  (lines.filter (fun l => l.startMatch.isSome)).length

/-! ## Output naming in `chunkAudioSegment` (lines 97-100) -/

/-- The value of `x` with its fraction discarded (truncation toward zero), as
an unbounded integer. -/
def truncInt (x : ℚ) : Int := if 0 ≤ x then ⌊x⌋ else ⌈x⌉

/-- The conversion `int(x)` of a `float64` to the 64-bit `int`: the fraction is
discarded when the truncated value lies in `[-2^63, 2^63)`.  Outside that range
Go leaves the result to the implementation; it enters as `outOfRange`. -/
def goInt (outOfRange : ℚ → Int) (x : ℚ) : Int :=
  if -2 ^ 63 ≤ truncInt x ∧ truncInt x < 2 ^ 63 then truncInt x else outOfRange x

/-- The out-of-range result of the conversion on amd64: the smallest `int`,
whatever the operand. -/
def amd64OutOfRange (_ : ℚ) : Int := -2 ^ 63

/-- The backward scan of `filepath.Ext` (Unix separator): `rev` is what is
left of the path, last character first, `acc` the suffix already passed. -/
def extScan : List Char → List Char → List Char
  | [], _ => []
  | c :: rev, acc =>
    if c = '/' then []
    else if c = '.' then c :: acc
    else extScan rev (c :: acc)

/-- The library function `filepath.Ext`: the suffix of the last path element
from its last dot on, or the empty string. -/
def filepathExt (path : String) : String :=
  String.mk (extScan path.data.reverse [])

/-- The text `fmt.Sprintf("chunk_%d-%d%s", int(start), int(end), ext)`. -/
def chunkFileName (outOfRange : ℚ → Int) (ext : String) (start end_ : ℚ) : String :=
  "chunk_" ++ toString (goInt outOfRange start) ++ "-" ++ toString (goInt outOfRange end_) ++ ext

/-- The variable `outputPattern`; `join` stands for the library function
`filepath.Join` on two elements. -/
def outputPattern (outOfRange : ℚ → Int) (join : String → String → String)
    (inputFile outputDir : String) (start end_ : ℚ) : String :=
  join outputDir (chunkFileName outOfRange (filepathExt inputFile) start end_)

/-- The result of `chunkAudioSegment`; `mkdirErr` and `runErr` are the errors
of `os.MkdirAll` and of `cmd.Run()` (`none` for nil). -/
def chunkAudioSegment (outOfRange : ℚ → Int) (join : String → String → String)
    (mkdirErr runErr : Option String) (inputFile outputDir : String) (start end_ : ℚ) :
    Except String String :=
  match mkdirErr with
  | some err => Except.error err
  | none =>
    let outputPattern := outputPattern outOfRange join inputFile outputDir start end_
    match runErr with
    | some err => Except.error err
    | none => Except.ok outputPattern

/-- The integer pair a span contributes to its file name. -/
def nameKey (outOfRange : ℚ → Int) (c : Chunk) : Int × Int :=
  (goInt outOfRange c.start, goInt outOfRange c.end_)

/-- The number a list of decimal digit characters stands for. -/
def digitsValue (l : List Char) : Nat :=
  l.foldl (fun acc c => 10 * acc + (c.toNat - 48)) 0

/-! ## Lemmas on the planning loop -/


theorem candidatesFrom_cons (c : ℚ) (r : Silence) (rest : List Silence) :
    candidatesFrom c (r :: rest)
      = { start := c, end_ := r.Start, duration := r.Start - c } :: candidatesFrom r.End rest := by
  simp [candidatesFrom]

theorem planFrom_chunks (minDur : Int) (res : List Silence) (st : PlanState) :
    (planFrom minDur st res).chunks
      = st.chunks ++ (candidatesFrom st.cursor res).filter
          (fun c => decide (c.duration > (minDur : ℚ))) := by
  induction res generalizing st with
  | nil => simp [planFrom, candidatesFrom]
  | cons r rest ih =>
    have hstep : planFrom minDur st (r :: rest) = planFrom minDur (planStep minDur st r) rest := rfl
    rw [hstep, ih, candidatesFrom_cons]
    by_cases h : r.Start - st.cursor > (minDur : ℚ)
    · simp [planStep, h, List.filter_cons]
    · simp [planStep, h, List.filter_cons]

theorem keptChunks_eq_filter (minDur : Int) (res : List Silence) :
    keptChunks minDur res
      = (candidateSpans res).filter (fun c => decide (c.duration > (minDur : ℚ))) := by
  have h := planFrom_chunks minDur res { chunks := [], cursor := 0 }
  simpa [keptChunks, planLoop, planFrom, candidateSpans, candidatesFrom] using h

theorem candidatesFrom_length (c : ℚ) (res : List Silence) :
    (candidatesFrom c res).length = res.length := by
  simp [candidatesFrom]

theorem candidatesFrom_getElem? (res : List Silence) (c : ℚ) (i : Nat) (r : Silence)
    (h : res[i]? = some r) :
    (candidatesFrom c res)[i]?
      = some { start := if i = 0 then c else prevEnd res i, end_ := r.Start,
               duration := r.Start - (if i = 0 then c else prevEnd res i) } := by
  induction res generalizing c i with
  | nil => simp at h
  | cons r0 rest ih =>
    rw [candidatesFrom_cons]
    cases i with
    | zero =>
      simp at h
      simp [h]
    | succ j =>
      simp at h
      have hj := ih r0.End j h
      simp only [List.getElem?_cons_succ, hj]
      cases j with
      | zero => simp [prevEnd]
      | succ k => simp [prevEnd]

theorem candidatesFrom_congr (res res' : List Silence) (c : ℚ)
    (h : res'.map (fun r => (r.Start, r.End)) = res.map (fun r => (r.Start, r.End))) :
    candidatesFrom c res' = candidatesFrom c res := by
  induction res generalizing res' c with
  | nil =>
    cases res' with
    | nil => rfl
    | cons a l => simp at h
  | cons r rest ih =>
    cases res' with
    | nil => simp at h
    | cons a l =>
      simp only [List.map_cons, List.cons.injEq, Prod.mk.injEq] at h
      obtain ⟨⟨hs, he⟩, hl⟩ := h
      rw [candidatesFrom_cons, candidatesFrom_cons, hs, he, ih l r.End hl]

theorem candidateSpans_eq (res : List Silence) : candidateSpans res = candidatesFrom 0 res := rfl

theorem mem_keptChunks_iff (minDur : Int) (res : List Silence) (c : Chunk) :
    c ∈ keptChunks minDur res ↔ c ∈ candidateSpans res ∧ c.duration > (minDur : ℚ) := by
  rw [keptChunks_eq_filter]
  simp [List.mem_filter]

theorem extractLoop_initial (ok : Nat → Bool) (minDur : Int) (l : List Chunk) (i : Nat) :
    extractLoop ok minDur i l <+: l ∨ ∃ c ∈ l, c.duration < (minDur : ℚ) := by
  induction l generalizing i with
  | nil => left; simp [extractLoop]
  | cons r rest ih =>
    by_cases hlt : r.duration < (minDur : ℚ)
    · right; exact ⟨r, by simp, hlt⟩
    · rcases ih (i + 1) with h | ⟨c, hc, hcl⟩
      · left
        by_cases hok : ok i = true
        · simp only [extractLoop, hlt, hok, if_true, if_false]
          exact (List.prefix_cons_inj r).mpr h
        · simp only [extractLoop, hlt, hok, if_false]
          exact ⟨rest, rfl⟩
      · right; exact ⟨c, List.mem_cons_of_mem _ hc, hcl⟩

theorem extractLoop_all_ok (ok : Nat → Bool) (minDur : Int) (l : List Chunk) (i : Nat)
    (hok : ∀ j, ok j = true) (hl : ∀ c ∈ l, ¬ c.duration < (minDur : ℚ)) :
    extractLoop ok minDur i l = l := by
  induction l generalizing i with
  | nil => simp [extractLoop]
  | cons r rest ih =>
    have h1 : ¬ r.duration < (minDur : ℚ) := hl r (by simp)
    have h2 : extractLoop ok minDur (i + 1) rest = rest :=
      ih (i + 1) (fun c hc => hl c (List.mem_cons_of_mem _ hc))
    simp [extractLoop, h1, hok i, h2]

theorem keptChunks_not_lt (minDur : Int) (res : List Silence) :
    ∀ c ∈ keptChunks minDur res, ¬ c.duration < (minDur : ℚ) := by
  intro c hc
  have h := ((mem_keptChunks_iff minDur res c).mp hc).2
  exact not_lt.mpr (le_of_lt h)

theorem extractedSpans_initial (ok : Nat → Bool) (minDur : Int) (res : List Silence) :
    extractedSpans ok minDur res <+: keptChunks minDur res := by
  rcases extractLoop_initial ok minDur (keptChunks minDur res) 0 with h | ⟨c, hc, hcl⟩
  · exact h
  · exact absurd hcl (keptChunks_not_lt minDur res c hc)

/-! ## The planner -/

/-- C1: the planner forms exactly one candidate span per silence interval, the
`i`-th running from the end of interval `i - 1` (from `0` for the first) to the
start of interval `i` with the duration recomputed as the difference; the kept
list is the sub-list of the candidates whose duration exceeds `minDur`, in
order; and the kept list does not depend on the input durations. -/
theorem planner_reference (res : List Silence) (minDur : Int) :
    (candidateSpans res).length = res.length ∧
    (∀ (i : Nat) (r : Silence), res[i]? = some r →
        (candidateSpans res)[i]?
          = some { start := prevEnd res i, end_ := r.Start,
                   duration := r.Start - prevEnd res i }) ∧
    keptChunks minDur res
      = (candidateSpans res).filter (fun c => decide (c.duration > (minDur : ℚ))) ∧
    (∀ res' : List Silence,
        res'.map (fun r => (r.Start, r.End)) = res.map (fun r => (r.Start, r.End)) →
        keptChunks minDur res' = keptChunks minDur res) := by
  refine ⟨candidatesFrom_length 0 res, ?_, keptChunks_eq_filter minDur res, ?_⟩
  · intro i r h
    have hc := candidatesFrom_getElem? res 0 i r h
    rw [candidateSpans_eq, hc]
    cases i with
    | zero => simp [prevEnd]
    | succ j => simp
  · intro res' h
    rw [keptChunks_eq_filter, keptChunks_eq_filter, candidateSpans_eq, candidateSpans_eq,
      candidatesFrom_congr res res' 0 h]

/-- Scenario A of the specification, run through `planner_reference`: silences
`(2, 5)` and `(10, 10.3)` with `minDur = 3` keep the single span `[5, 10)`. -/
theorem planner_reference_witness :
    keptChunks 3 [⟨2, 5, 3⟩, ⟨10, 103 / 10, 3 / 10⟩] = [⟨5, 10, 5⟩]
    ∧ keptChunks 3 [⟨2, 5, 0⟩, ⟨10, 103 / 10, 77⟩]
        = keptChunks 3 [⟨2, 5, 3⟩, ⟨10, 103 / 10, 3 / 10⟩] := by
  have h := planner_reference [⟨2, 5, 3⟩, ⟨10, 103 / 10, 3 / 10⟩] 3
  refine ⟨?_, h.2.2.2 _ (by simp)⟩
  rw [h.2.2.1]
  simp [candidateSpans, List.filter_cons]
  norm_num

/-- C2: every span handed to `chunkAudioSegment` has a duration strictly above
`minDur`; a candidate whose duration is at most `minDur` is neither kept nor
extracted; the second check `r.duration < minDur` skips no kept span; the calls
are an initial part of the kept list, and the whole kept list when no call
fails. -/
theorem extracted_exceed_minDur (ok : Nat → Bool) (res : List Silence) (minDur : Int) :
    (∀ c ∈ extractedSpans ok minDur res, c.duration > (minDur : ℚ)) ∧
    (∀ c ∈ candidateSpans res, c.duration ≤ (minDur : ℚ) →
        c ∉ keptChunks minDur res ∧ c ∉ extractedSpans ok minDur res) ∧
    (keptChunks minDur res).filter (fun r => !decide (r.duration < (minDur : ℚ)))
      = keptChunks minDur res ∧
    extractedSpans ok minDur res <+: keptChunks minDur res ∧
    ((∀ i, ok i = true) → extractedSpans ok minDur res = keptChunks minDur res) := by
  have hpre := extractedSpans_initial ok minDur res
  have hkept : ∀ c ∈ keptChunks minDur res, c.duration > (minDur : ℚ) :=
    fun c hc => ((mem_keptChunks_iff minDur res c).mp hc).2
  refine ⟨fun c hc => hkept c (hpre.subset hc), ?_, ?_, hpre, ?_⟩
  · intro c _ hle
    have hk : c ∉ keptChunks minDur res := fun hc => absurd (hkept c hc) (not_lt.mpr hle)
    exact ⟨hk, fun hc => hk (hpre.subset hc)⟩
  · rw [List.filter_eq_self]
    intro c hc
    simpa using le_of_lt (hkept c hc)
  · intro hok
    exact extractLoop_all_ok ok minDur _ 0 hok (keptChunks_not_lt minDur res)

/-- The boundary case run through `extracted_exceed_minDur`: with `minDur = 3`
the candidate `[0, 3)` of duration exactly `3` is not extracted, the candidate
`[5, 10)` is, and it is the only call. -/
theorem extracted_exceed_minDur_witness :
    extractedSpans (fun _ => true) 3 [⟨3, 5, 2⟩, ⟨10, 11, 1⟩] = [⟨5, 10, 5⟩]
    ∧ (⟨0, 3, 3⟩ : Chunk) ∉ extractedSpans (fun _ => true) 3 [⟨3, 5, 2⟩, ⟨10, 11, 1⟩] := by
  have h := extracted_exceed_minDur (fun _ => true) [⟨3, 5, 2⟩, ⟨10, 11, 1⟩] 3
  constructor
  · rw [h.2.2.2.2 (fun _ => rfl), keptChunks_eq_filter]
    simp [candidateSpans, List.filter_cons]
    norm_num
  · exact (h.2.1 ⟨0, 3, 3⟩ (by simp [candidateSpans]) (by norm_num)).2

theorem mem_candidatesFrom (res : List Silence) (c0 : ℚ) (c : Chunk)
    (hc : c ∈ candidatesFrom c0 res) :
    (∃ r ∈ res, c.end_ = r.Start) ∧ (c.start = c0 ∨ ∃ r ∈ res.dropLast, c.start = r.End) := by
  induction res generalizing c0 with
  | nil => simp [candidatesFrom] at hc
  | cons r rest ih =>
    rw [candidatesFrom_cons, List.mem_cons] at hc
    rcases hc with rfl | hc
    · exact ⟨⟨r, by simp, rfl⟩, Or.inl rfl⟩
    · obtain ⟨⟨r1, hr1, he⟩, hs⟩ := ih r.End hc
      refine ⟨⟨r1, List.mem_cons_of_mem _ hr1, he⟩, Or.inr ?_⟩
      cases rest with
      | nil => simp at hr1
      | cons a l =>
        rw [List.dropLast_cons₂]
        rcases hs with hs | ⟨r2, hr2, hs⟩
        · exact ⟨r, by simp, hs⟩
        · exact ⟨r2, List.mem_cons_of_mem _ hr2, hs⟩

theorem candidatesFrom_append_singleton (pre : List Silence) (c0 : ℚ) (r r' : Silence)
    (h : r.Start = r'.Start) :
    candidatesFrom c0 (pre ++ [r]) = candidatesFrom c0 (pre ++ [r']) := by
  induction pre generalizing c0 with
  | nil => simp [candidatesFrom, h]
  | cons a l ih =>
    rw [List.cons_append, List.cons_append, candidatesFrom_cons, candidatesFrom_cons, ih a.End]

/-- C3 (as amended): the kept spans are at most as many as the silence
intervals; every kept span ends at the start of some input interval and begins
at `0` or at the end of an interval other than the last; the end of the last
interval enters no span (changing it leaves the kept list unchanged), so no
kept span begins there whenever that end is non-zero and differs from the end
of every earlier interval; for no intervals at all nothing is kept and nothing
is extracted. -/
theorem no_trailing_span (ok : Nat → Bool) (res : List Silence) (minDur : Int) :
    (keptChunks minDur res).length ≤ res.length ∧
    (∀ c ∈ keptChunks minDur res, ∃ r ∈ res, c.end_ = r.Start) ∧
    (∀ c ∈ keptChunks minDur res, c.start = 0 ∨ ∃ r ∈ res.dropLast, c.start = r.End) ∧
    (∀ (pre : List Silence) (last : Silence) (e : ℚ), res = pre ++ [last] →
        keptChunks minDur (pre ++ [{ last with End := e }]) = keptChunks minDur res) ∧
    (∀ last : Silence, res.getLast? = some last → last.End ≠ 0 →
        (∀ r ∈ res.dropLast, r.End ≠ last.End) →
        ∀ c ∈ keptChunks minDur res, c.start ≠ last.End) ∧
    keptChunks minDur [] = [] ∧ extractedSpans ok minDur [] = [] := by
  have hmem : ∀ c ∈ keptChunks minDur res,
      (∃ r ∈ res, c.end_ = r.Start) ∧ (c.start = 0 ∨ ∃ r ∈ res.dropLast, c.start = r.End) :=
    fun c hc => mem_candidatesFrom res 0 c ((mem_keptChunks_iff minDur res c).mp hc).1
  refine ⟨?_, fun c hc => (hmem c hc).1, fun c hc => (hmem c hc).2, ?_, ?_, rfl, rfl⟩
  · rw [keptChunks_eq_filter]
    calc ((candidateSpans res).filter _).length
        ≤ (candidateSpans res).length := List.length_filter_le _ _
      _ = res.length := candidatesFrom_length 0 res
  · intro pre last e hres
    rw [hres, keptChunks_eq_filter, keptChunks_eq_filter, candidateSpans_eq, candidateSpans_eq,
      candidatesFrom_append_singleton pre 0 { last with End := e } last rfl]
  · intro last _ h0 hne c hc hcs
    rcases (hmem c hc).2 with h | ⟨r, hr, h⟩
    · exact h0 (hcs.symm.trans h)
    · exact hne r hr (h.symm.trans hcs)

/-- Scenario A run through `no_trailing_span`: at most two spans are kept, and
a span beginning at `10.3`, where the last silence ends, is not among them. -/
theorem no_trailing_span_witness :
    (keptChunks 3 [⟨2, 5, 3⟩, ⟨10, 103 / 10, 3 / 10⟩]).length ≤ 2
    ∧ (⟨103 / 10, 20, 97 / 10⟩ : Chunk) ∉ keptChunks 3 [⟨2, 5, 3⟩, ⟨10, 103 / 10, 3 / 10⟩] :=
  ⟨(no_trailing_span (fun _ => true) [⟨2, 5, 3⟩, ⟨10, 103 / 10, 3 / 10⟩] 3).1,
   fun hc => (no_trailing_span (fun _ => true) [⟨2, 5, 3⟩, ⟨10, 103 / 10, 3 / 10⟩] 3).2.2.2.2.1
      ⟨10, 103 / 10, 3 / 10⟩ (by simp) (by norm_num) (by simp; norm_num) _ hc rfl⟩

/-- C3 as stated fails when an earlier interval ends where the last one does:
for the silences `(1, 5)` and `(2, 5)` and `minDur = -4` the kept list is
`[0, 1)`, `[5, 2)`, and its second span begins at `5`, the end of the last
interval. -/
theorem no_trailing_span_counterexample :
    keptChunks (-4) [⟨1, 5, 4⟩, ⟨2, 5, 3⟩] = [⟨0, 1, 1⟩, ⟨5, 2, -3⟩]
    ∧ ¬ (∀ c ∈ keptChunks (-4) [⟨1, 5, 4⟩, ⟨2, 5, 3⟩],
          some c.start ≠ ([⟨1, 5, 4⟩, ⟨2, 5, 3⟩] : List Silence).getLast?.map (fun r => r.End)) := by
  have hk : keptChunks (-4) [⟨1, 5, 4⟩, ⟨2, 5, 3⟩] = [⟨0, 1, 1⟩, ⟨5, 2, -3⟩] := by
    rw [keptChunks_eq_filter]
    simp [candidateSpans, List.filter_cons]
    norm_num
  refine ⟨hk, ?_⟩
  rw [hk]
  simp

/-- C4 (as amended): for the empty list of silence intervals the planner keeps
no span at all (there is no whole-file span) and `chunkAudioSegment` is never
called. -/
theorem empty_input_keeps_nothing (ok : Nat → Bool) (minDur : Int) :
    keptChunks minDur [] = [] ∧ (keptChunks minDur []).length = 0 ∧
    extractedSpans ok minDur [] = [] :=
  ⟨rfl, rfl, rfl⟩

/-- C4 as stated fails: with the default `minDur = 3` the kept list for no
silence intervals is not a single span starting at `0`; it is empty. -/
theorem whole_file_span_counterexample :
    ¬ (∃ c : Chunk, keptChunks 3 [] = [c] ∧ c.start = 0) := by
  simp [keptChunks, planLoop]

/-- C5 (as amended): when the first silence starts at `0` and `minDur` is not
negative, the first candidate is the span `(0, 0, 0)`; it is not in the kept
list and is not handed to `chunkAudioSegment`, and the first iteration leaves
`chunks` empty, the loop going on from the cursor `r.End`. -/
theorem leading_silence_filtered (ok : Nat → Bool) (r : Silence) (rest : List Silence)
    (minDur : Int) (hstart : r.Start = 0) (hmin : 0 ≤ minDur) :
    (candidateSpans (r :: rest)).head? = some ⟨0, 0, 0⟩ ∧
    (⟨0, 0, 0⟩ : Chunk) ∉ keptChunks minDur (r :: rest) ∧
    (⟨0, 0, 0⟩ : Chunk) ∉ extractedSpans ok minDur (r :: rest) ∧
    keptChunks minDur (r :: rest)
      = (planFrom minDur { chunks := [], cursor := r.End } rest).chunks := by
  have hq : (0 : ℚ) ≤ (minDur : ℚ) := by exact_mod_cast hmin
  have hk : (⟨0, 0, 0⟩ : Chunk) ∉ keptChunks minDur (r :: rest) := by
    intro hc
    have h := ((mem_keptChunks_iff minDur (r :: rest) _).mp hc).2
    simp only at h
    exact absurd h (not_lt.mpr hq)
  refine ⟨?_, hk, fun hc => hk ((extractedSpans_initial ok minDur (r :: rest)).subset hc), ?_⟩
  · rw [candidateSpans_eq, candidatesFrom_cons, hstart]
    simp
  · have hstep : planStep minDur { chunks := [], cursor := 0 } r
        = { chunks := [], cursor := r.End } := by
      simp [planStep, hstart, not_lt.mpr hq]
    show (List.foldl (planStep minDur) { chunks := [], cursor := 0 } (r :: rest)).chunks = _
    rw [List.foldl_cons, hstep]
    rfl

/-- A file that opens with silence, run through `leading_silence_filtered` with
the default `minDur = 3`: the span `(0, 0, 0)` is not extracted. -/
theorem leading_silence_filtered_witness :
    (⟨0, 0, 0⟩ : Chunk) ∉ extractedSpans (fun _ => true) 3 [⟨0, 2, 2⟩, ⟨8, 9, 1⟩] :=
  (leading_silence_filtered (fun _ => true) ⟨0, 2, 2⟩ [⟨8, 9, 1⟩] 3 rfl (by decide)).2.2.1

/-- C5 as stated fails for a negative `minDur`: with `minDur = -1` and one
silence starting at `0`, the span `(0, 0, 0)` is kept and is handed to
`chunkAudioSegment`. -/
theorem leading_silence_counterexample :
    keptChunks (-1) [⟨0, 2, 2⟩] = [⟨0, 0, 0⟩]
    ∧ extractedSpans (fun _ => true) (-1) [⟨0, 2, 2⟩] = [⟨0, 0, 0⟩] := by
  have hk : keptChunks (-1) [⟨0, 2, 2⟩] = [⟨0, 0, 0⟩] := by
    rw [keptChunks_eq_filter]
    simp [candidateSpans, List.filter_cons]
  refine ⟨hk, ?_⟩
  simp [extractedSpans, hk, extractLoop]

/-! ## Lemmas on the scanner loop -/

theorem scanFrom_append (st : ScanState) (a b : List Line) :
    scanFrom st (a ++ b) = scanFrom (scanFrom st a) b := by
  simp [scanFrom, List.foldl_append]

theorem scanFrom_cons (st : ScanState) (l : Line) (rest : List Line) :
    scanFrom st (l :: rest) = scanFrom (scanStep st l) rest := rfl

theorem scanStep_other (st : ScanState) (l : Line) (hs : l.startMatch = none)
    (he : l.endMatch = none) : scanStep st l = st := by
  simp [scanStep, hs, he]

theorem scanStep_end_idle (st : ScanState) (l : Line) (hs : l.startMatch = none)
    (hidle : st.currentStart = none) : scanStep st l = st := by
  cases hm : l.endMatch with
  | none => simp [scanStep, hs, hm]
  | some p => simp [scanStep, hs, hm, hidle]

theorem scanStep_after_end (st : ScanState) (l : Line) (he : l.endMatch.isSome = true) :
    (scanStep st l).currentStart = none := by
  obtain ⟨⟨e, d⟩, hm⟩ := Option.isSome_iff_exists.mp he
  cases hs : l.startMatch with
  | none =>
    cases hc : st.currentStart with
    | none => simp [scanStep, hs, hm, hc]
    | some c => simp [scanStep, hs, hm, hc]
  | some t => simp [scanStep, hs, hm]

theorem scanFrom_filter (lines : List Line) (st : ScanState) :
    scanFrom st (lines.filter isEvent) = scanFrom st lines := by
  induction lines generalizing st with
  | nil => rfl
  | cons l rest ih =>
    by_cases h : isEvent l = true
    · rw [List.filter_cons_of_pos h, scanFrom_cons, scanFrom_cons, ih]
    · rw [List.filter_cons_of_neg h, scanFrom_cons, ih]
      have h2 : l.startMatch = none ∧ l.endMatch = none := by
        simpa [isEvent] using h
      rw [scanStep_other st l h2.1 h2.2]

theorem scanFrom_alternating (evs : List Silence) (st : ScanState) :
    (scanFrom st (alternating evs)).silences = st.silences ++ evs := by
  induction evs generalizing st with
  | nil => simp [alternating, scanFrom]
  | cons v rest ih =>
    simp only [alternating, scanFrom_cons]
    rw [ih]
    simp [scanStep, startLine, endLine]

theorem scanStep_count (st : ScanState) (l : Line) :
    (scanStep st l).silences.length + (if (scanStep st l).currentStart.isSome then 1 else 0)
      ≤ st.silences.length + (if st.currentStart.isSome then 1 else 0)
        + (if l.startMatch.isSome then 1 else 0) := by
  cases hs : l.startMatch <;> cases hm : l.endMatch <;> cases hc : st.currentStart <;>
    simp [scanStep, hs, hm, hc]

theorem startCount_cons (l : Line) (rest : List Line) :
    startCount (l :: rest) = (if l.startMatch.isSome then 1 else 0) + startCount rest := by
  cases hs : l.startMatch <;> simp [startCount, List.filter_cons, hs, Nat.add_comm]

theorem scanFrom_count (lines : List Line) (st : ScanState) :
    (scanFrom st lines).silences.length
        + (if (scanFrom st lines).currentStart.isSome then 1 else 0)
      ≤ st.silences.length + (if st.currentStart.isSome then 1 else 0) + startCount lines := by
  induction lines generalizing st with
  | nil => simp [scanFrom, startCount]
  | cons l rest ih =>
    rw [scanFrom_cons, startCount_cons]
    have h1 := ih (scanStep st l)
    have h2 := scanStep_count st l
    omega

theorem parseLines_length_le (lines : List Line) :
    (parseLines lines).length ≤ startCount lines := by
  have h := scanFrom_count lines { silences := [], currentStart := none }
  simp only [List.length_nil, Option.isSome_none, Bool.false_eq_true, if_false] at h
  have h3 : (parseLines lines).length = (scanFrom { silences := [], currentStart := none } lines).silences.length := rfl
  omega

theorem lastStart_append_singleton (pre : List Line) (l : Line) :
    lastStart (pre ++ [l]) = (match l.startMatch with
      | some t => some t
      | none => lastStart pre) := by
  simp [lastStart, List.foldl_append]

theorem scanLoop_append_singleton (pre : List Line) (l : Line) :
    scanLoop (pre ++ [l]) = scanStep (scanLoop pre) l := by
  simp [scanLoop, scanFrom, List.foldl_append]

theorem scanLoop_pending (lines : List Line) (t : ℚ)
    (h : (scanLoop lines).currentStart = some t) : lastStart lines = some t := by
  induction lines using List.reverseRecOn generalizing t with
  | nil => simp [scanLoop, scanFrom] at h
  | append_singleton pre l ih =>
    rw [scanLoop_append_singleton] at h
    rw [lastStart_append_singleton]
    cases hs : l.startMatch with
    | some a =>
      cases hm : l.endMatch with
      | none => simpa [scanStep, hs, hm] using h
      | some p => simp [scanStep, hs, hm] at h
    | none =>
      cases hm : l.endMatch with
      | none =>
        rw [scanStep_other _ l hs hm] at h
        simpa using ih t h
      | some p =>
        have := scanStep_after_end (scanLoop pre) l (by simp [hm])
        rw [this] at h
        simp at h

theorem scanStep_emit (pre : List Line) (l : Line) :
    (scanLoop (pre ++ [l])).silences = (scanLoop pre).silences
    ∨ ∃ b e d, l.endMatch = some (e, d) ∧ lastStart (pre ++ [l]) = some b ∧
        (scanLoop (pre ++ [l])).silences
          = (scanLoop pre).silences ++ [{ Start := b, End := e, Duration := d }] := by
  rw [scanLoop_append_singleton, lastStart_append_singleton]
  cases hs : l.startMatch with
  | some a =>
    cases hm : l.endMatch with
    | none => left; simp [scanStep, hs, hm]
    | some p => right; exact ⟨a, p.1, p.2, rfl, rfl, by simp [scanStep, hs, hm]⟩
  | none =>
    cases hm : l.endMatch with
    | none => left; simp [scanStep, hs, hm]
    | some p =>
      cases hc : (scanLoop pre).currentStart with
      | none => left; simp [scanStep, hs, hm, hc]
      | some c =>
        right
        exact ⟨c, p.1, p.2, rfl, by simpa using scanLoop_pending pre c hc,
          by simp [scanStep, hs, hm, hc]⟩

theorem mem_parseLines (lines : List Line) (x : Silence) (hx : x ∈ parseLines lines) :
    ∃ pre l post b e d, lines = pre ++ l :: post ∧ l.endMatch = some (e, d) ∧
      lastStart (pre ++ [l]) = some b ∧ x = { Start := b, End := e, Duration := d } := by
  induction lines using List.reverseRecOn with
  | nil => simp [parseLines, scanLoop, scanFrom] at hx
  | append_singleton pre l ih =>
    have hprev : x ∈ parseLines pre →
        ∃ pre0 l0 post b e d, pre ++ [l] = pre0 ++ l0 :: post ∧ l0.endMatch = some (e, d) ∧
          lastStart (pre0 ++ [l0]) = some b ∧ x = { Start := b, End := e, Duration := d } := by
      intro h
      obtain ⟨pre0, l0, post, b, e, d, h1, h2, h3, h4⟩ := ih h
      exact ⟨pre0, l0, post ++ [l], b, e, d, by simp [h1], h2, h3, h4⟩
    rcases scanStep_emit pre l with h | ⟨b, e, d, h1, h2, h3⟩
    · exact hprev (by unfold parseLines at hx ⊢; rwa [h] at hx)
    · unfold parseLines at hx
      rw [h3, List.mem_append] at hx
      rcases hx with hx | hx
      · exact hprev hx
      · exact ⟨pre, l, [], b, e, d, rfl, h1, h2, by simpa using hx⟩

theorem scanFrom_idle (mid : List Line) (st : ScanState)
    (hmid : ∀ m ∈ mid, m.startMatch = none) (hidle : st.currentStart = none) :
    scanFrom st mid = st := by
  induction mid with
  | nil => rfl
  | cons m rest ih =>
    rw [scanFrom_cons, scanStep_end_idle st m (hmid m (by simp)) hidle]
    exact ih (fun x hx => hmid x (List.mem_cons_of_mem _ hx))

theorem parseLines_filter (lines : List Line) :
    parseLines (lines.filter isEvent) = parseLines lines := by
  simp [parseLines, scanLoop, scanFrom_filter]

theorem detectSilences_ok (lines : List Line) :
    detectSilences { pipeErr := none, startErr := none, lines := lines, scanErr := none }
      = Except.ok (parseLines lines) := rfl

theorem lastStart_after_start (pre mid : List Line) (t : ℚ)
    (hmid : ∀ m ∈ mid, m.startMatch = none) :
    lastStart (pre ++ startLine t :: mid) = some t := by
  have hfold : ∀ (l : List Line) (acc : Option ℚ), (∀ m ∈ l, m.startMatch = none) →
      l.foldl (fun acc l => match l.startMatch with
        | some t => some t
        | none => acc) acc = acc := by
    intro l
    induction l with
    | nil => intro acc _; rfl
    | cons m rest ih =>
      intro acc h
      rw [List.foldl_cons, h m (by simp)]
      exact ih acc (fun x hx => h x (List.mem_cons_of_mem _ hx))
  simp only [lastStart, List.foldl_append, List.foldl_cons, startLine]
  exact hfold mid (some t) hmid

/-! ## The parser -/

/-- C6: on a stream whose matching lines are `n` alternating start and end
events, with lines matching neither pattern interleaved anywhere, the parser
returns exactly the `n` intervals `Silence{s_i, e_i, d_i}` in stream order, and
`detectSilences` returns them without error; every stream with the same
matching lines gives the same result, and inserting or deleting one
non-matching line anywhere in any stream leaves the result unchanged. -/
theorem parser_well_formed_stream (evs : List Silence) (lines : List Line)
    (h : lines.filter isEvent = alternating evs) :
    parseLines lines = evs ∧
    detectSilences { pipeErr := none, startErr := none, lines := lines, scanErr := none }
      = Except.ok evs ∧
    (∀ lines' : List Line, lines'.filter isEvent = lines.filter isEvent →
        parseLines lines' = evs) ∧
    (∀ (pre post : List Line) (l : Line), isEvent l = false →
        parseLines (pre ++ l :: post) = parseLines (pre ++ post)) := by
  have halt : parseLines (alternating evs) = evs := by
    have := scanFrom_alternating evs { silences := [], currentStart := none }
    simpa [parseLines, scanLoop] using this
  have hp : parseLines lines = evs := by
    rw [← parseLines_filter, h, halt]
  refine ⟨hp, by rw [detectSilences_ok, hp], ?_, ?_⟩
  · intro lines' h'
    rw [← parseLines_filter, h', h, halt]
  · intro pre post l hl
    rw [← parseLines_filter (pre ++ l :: post), ← parseLines_filter (pre ++ post)]
    simp [List.filter_append, List.filter_cons, hl]

/-- Scenario A as a stream with noise lines, run through
`parser_well_formed_stream`: the two intervals come out in order. -/
theorem parser_well_formed_stream_witness :
    parseLines [otherLine, startLine 2, otherLine, endLine 5 3, startLine 10,
        endLine (103 / 10) (3 / 10), otherLine]
      = [⟨2, 5, 3⟩, ⟨10, 103 / 10, 3 / 10⟩] :=
  (parser_well_formed_stream [⟨2, 5, 3⟩, ⟨10, 103 / 10, 3 / 10⟩]
    [otherLine, startLine 2, otherLine, endLine 5 3, startLine 10,
      endLine (103 / 10) (3 / 10), otherLine] rfl).1

/-- C7: an end event arriving while no start is pending changes nothing: the
scanner state after it is the state before it, the result on the stream is the
result on the stream without that line, and `detectSilences` returns that
result and no error.  No start is pending at the beginning of the stream and
after any end line followed only by lines without a start event.  On every
stream the emitted intervals are at most as many as the start events. -/
theorem end_without_pending_start (pre post : List Line) (e d : ℚ)
    (hidle : (scanLoop pre).currentStart = none) :
    scanLoop (pre ++ [endLine e d]) = scanLoop pre ∧
    parseLines (pre ++ endLine e d :: post) = parseLines (pre ++ post) ∧
    detectSilences { pipeErr := none, startErr := none, lines := pre ++ endLine e d :: post,
                     scanErr := none } = Except.ok (parseLines (pre ++ post)) ∧
    (scanLoop []).currentStart = none ∧
    (∀ (pre0 mid : List Line) (l0 : Line), l0.endMatch.isSome = true →
        (∀ m ∈ mid, m.startMatch = none) →
        (scanLoop (pre0 ++ l0 :: mid)).currentStart = none) ∧
    (∀ lines : List Line, (parseLines lines).length ≤ startCount lines) := by
  have hstep : scanStep (scanLoop pre) (endLine e d) = scanLoop pre :=
    scanStep_end_idle _ _ rfl hidle
  have hp : parseLines (pre ++ endLine e d :: post) = parseLines (pre ++ post) := by
    simp only [parseLines, scanLoop, scanFrom_append, scanFrom_cons]
    have hstep2 := hstep
    simp only [scanLoop] at hstep2
    rw [hstep2]
  refine ⟨by rw [scanLoop_append_singleton, hstep], hp, by rw [detectSilences_ok, hp], rfl,
    ?_, parseLines_length_le⟩
  intro pre0 mid l0 hl0 hmid
  have h1 : (scanLoop (pre0 ++ [l0])).currentStart = none := by
    rw [scanLoop_append_singleton]
    exact scanStep_after_end _ _ hl0
  have h2 : scanLoop (pre0 ++ l0 :: mid) = scanFrom (scanLoop (pre0 ++ [l0])) mid := by
    simp [scanLoop, scanFrom_append, scanFrom_cons, scanFrom]
  rw [h2, scanFrom_idle mid _ hmid h1]
  exact h1

/-- A stray end event after a closed interval, run through
`end_without_pending_start`: the line `end(7, 1)` adds nothing. -/
theorem end_without_pending_start_witness :
    parseLines [startLine 2, endLine 5 3, endLine 7 1, startLine 10, endLine 11 1]
      = parseLines [startLine 2, endLine 5 3, startLine 10, endLine 11 1] :=
  (end_without_pending_start [startLine 2, endLine 5 3] [startLine 10, endLine 11 1] 7 1
    (by simp [scanLoop, scanFrom, scanStep, startLine, endLine])).2.1

/-- C8: a start event replaces whatever start is pending.  Each line either
emits nothing or emits exactly one interval, whose end and duration are those
of the line and whose `Start` is the timestamp of the most recent start event
up to that line; hence every emitted `Silence` has this form.  The most recent
start event is the last start line, whatever lines without a start event follow
it, and an end line does not change it.  After `start(a), start(b)` the pending
start is `b`, and `start(a), start(b), end(e, d)` yields exactly the interval
`Silence{b, e, d}`. -/
theorem second_start_replaces_first (lines : List Line) (a b e d : ℚ) :
    (∀ (pre post : List Line) (l : Line), lines = pre ++ l :: post →
        (scanLoop (pre ++ [l])).silences = (scanLoop pre).silences
        ∨ ∃ t e0 d0, l.endMatch = some (e0, d0) ∧ lastStart (pre ++ [l]) = some t ∧
            (scanLoop (pre ++ [l])).silences
              = (scanLoop pre).silences ++ [{ Start := t, End := e0, Duration := d0 }]) ∧
    (∀ x ∈ parseLines lines, ∃ pre l post t e0 d0, lines = pre ++ l :: post ∧
        l.endMatch = some (e0, d0) ∧ lastStart (pre ++ [l]) = some t ∧
        x = { Start := t, End := e0, Duration := d0 }) ∧
    (∀ (pre mid : List Line) (t : ℚ), (∀ m ∈ mid, m.startMatch = none) →
        lastStart (pre ++ startLine t :: mid) = some t) ∧
    (∀ (pre : List Line) (e0 d0 : ℚ), lastStart (pre ++ [endLine e0 d0]) = lastStart pre) ∧
    (scanLoop (lines ++ [startLine a, startLine b])).currentStart = some b ∧
    parseLines [startLine a, startLine b, endLine e d] = [{ Start := b, End := e, Duration := d }] ∧
    parseLines (lines ++ [startLine a, startLine b, endLine e d])
      = parseLines lines ++ [{ Start := b, End := e, Duration := d }] := by
  have hgen : ∀ st : ScanState,
      scanFrom st [startLine a, startLine b, endLine e d]
        = { silences := st.silences ++ [{ Start := b, End := e, Duration := d }],
            currentStart := none } := by
    intro st
    simp [scanFrom, scanStep, startLine, endLine]
  refine ⟨fun pre _ l _ => scanStep_emit pre l, mem_parseLines lines, lastStart_after_start,
    ?_, ?_, ?_, ?_⟩
  · intro pre e0 d0
    rw [lastStart_append_singleton]
    rfl
  · simp [scanLoop, scanFrom, List.foldl_append, scanStep, startLine]
  · simp [parseLines, scanLoop, hgen]
  · simp [parseLines, scanLoop, scanFrom_append, hgen]

/-- The example of the claim run through `second_start_replaces_first`:
`start(1), start(4), end(9, 5)` yields the single interval `(4, 9, 5)`. -/
theorem second_start_replaces_first_witness :
    parseLines [startLine 1, startLine 4, endLine 9 5] = [⟨4, 9, 5⟩] :=
  (second_start_replaces_first [] 1 4 9 5).2.2.2.2.2.1

/-! ## Lemmas on truncation and decimal printing -/

theorem goInt_of_nonneg (o : ℚ → Int) (x : ℚ) (hx : 0 ≤ x) (hlt : x < 2 ^ 63) :
    goInt o x = ⌊x⌋ := by
  have h0 : (0 : Int) ≤ ⌊x⌋ := Int.floor_nonneg.mpr hx
  have h1 : ⌊x⌋ < 2 ^ 63 := by
    rw [Int.floor_lt]; push_cast; exact hlt
  have ht : truncInt x = ⌊x⌋ := by simp [truncInt, hx]
  unfold goInt
  rw [ht, if_pos ⟨by omega, h1⟩]

theorem goInt_out_of_range (o : ℚ → Int) (x : ℚ) (hx : 2 ^ 63 ≤ x) : goInt o x = o x := by
  have h0 : (0 : ℚ) ≤ x := le_trans (by positivity) hx
  have ht : truncInt x = ⌊x⌋ := by simp [truncInt, h0]
  have h1 : ¬ ⌊x⌋ < 2 ^ 63 := by
    rw [Int.floor_lt]; push_cast; exact not_lt.mpr hx
  unfold goInt
  rw [ht, if_neg (fun h => h1 h.2)]

theorem goInt_nonneg (o : ℚ → Int) (x : ℚ) (hx : 0 ≤ x) (hlt : x < 2 ^ 63) :
    0 ≤ goInt o x := by
  rw [goInt_of_nonneg o x hx hlt]
  exact Int.floor_nonneg.mpr hx

theorem goInt_lt_of_add_one_le (o : ℚ → Int) (x y : ℚ) (hx : 0 ≤ x) (hxy : x + 1 ≤ y)
    (hy2 : y < 2 ^ 63) : goInt o x < goInt o y := by
  have hy : 0 ≤ y := by linarith
  rw [goInt_of_nonneg o x hx (by linarith), goInt_of_nonneg o y hy hy2]
  have h1 : ⌊x⌋ + 1 = ⌊x + 1⌋ := (Int.floor_add_one x).symm
  have h2 : ⌊x + 1⌋ ≤ ⌊y⌋ := Int.floor_mono hxy
  omega

theorem digitChar_lt_ten (k : Nat) (hk : k < 10) :
    (Nat.digitChar k).toNat - 48 = k ∧ Nat.digitChar k ≠ '-' := by
  interval_cases k <;> decide

theorem digitsValue_append_singleton (pre : List Char) (c : Char) :
    digitsValue (pre ++ [c]) = 10 * digitsValue pre + (c.toNat - 48) := by
  simp [digitsValue, List.foldl_append]

theorem toDigitsCore_spec (fuel : Nat) : ∀ (n : Nat) (ds : List Char), n < fuel →
    ∃ pre, Nat.toDigitsCore 10 fuel n ds = pre ++ ds ∧ (∀ c ∈ pre, c ≠ '-') ∧
      digitsValue pre = n := by
  induction fuel with
  | zero => intro n ds h; omega
  | succ fuel ih =>
    intro n ds hn
    have hd := digitChar_lt_ten (n % 10) (Nat.mod_lt _ (by decide))
    by_cases h0 : n / 10 = 0
    · refine ⟨[Nat.digitChar (n % 10)], by simp [Nat.toDigitsCore, h0], ?_, ?_⟩
      · intro c hc
        rw [List.mem_singleton] at hc
        rw [hc]; exact hd.2
      · have : digitsValue [Nat.digitChar (n % 10)] = (Nat.digitChar (n % 10)).toNat - 48 := by
          simp [digitsValue]
        rw [this, hd.1]
        omega
    · have hlt : n / 10 < fuel := by omega
      obtain ⟨pre, h1, h2, h3⟩ := ih (n / 10) (Nat.digitChar (n % 10) :: ds) hlt
      refine ⟨pre ++ [Nat.digitChar (n % 10)], by simp [Nat.toDigitsCore, h0, h1], ?_, ?_⟩
      · intro c hc
        rw [List.mem_append, List.mem_singleton] at hc
        rcases hc with hc | hc
        · exact h2 c hc
        · rw [hc]; exact hd.2
      · rw [digitsValue_append_singleton, h3, hd.1]
        omega

theorem repr_spec (n : Nat) :
    (∀ c ∈ (Nat.repr n).data, c ≠ '-') ∧ digitsValue (Nat.repr n).data = n := by
  obtain ⟨pre, h1, h2, h3⟩ := toDigitsCore_spec (n + 1) n [] (Nat.lt_succ_self n)
  have hdata : (Nat.repr n).data = pre := by
    have : (Nat.repr n).data = Nat.toDigitsCore 10 (n + 1) n [] := rfl
    rw [this, h1, List.append_nil]
  rw [hdata]
  exact ⟨h2, h3⟩

theorem split_at_separator (x : Char) : ∀ (l1 l2 r1 r2 : List Char), x ∉ l1 → x ∉ l2 →
    l1 ++ x :: r1 = l2 ++ x :: r2 → l1 = l2 ∧ r1 = r2 := by
  intro l1
  induction l1 with
  | nil =>
    intro l2 r1 r2 _ h2 h
    cases l2 with
    | nil => simpa using h
    | cons b l2 =>
      simp only [List.nil_append, List.cons_append, List.cons.injEq] at h
      exact absurd (by rw [h.1]; simp) h2
  | cons a l1 ih =>
    intro l2 r1 r2 h1 h2 h
    cases l2 with
    | nil =>
      simp only [List.nil_append, List.cons_append, List.cons.injEq] at h
      exact absurd (by rw [← h.1]; simp) h1
    | cons b l2 =>
      simp only [List.cons_append, List.cons.injEq] at h
      have hrec := ih l2 r1 r2 (fun hm => h1 (List.mem_cons_of_mem _ hm))
        (fun hm => h2 (List.mem_cons_of_mem _ hm)) h.2
      exact ⟨by rw [h.1, hrec.1], hrec.2⟩

theorem toString_int_nonneg (a : Int) (ha : 0 ≤ a) : toString a = Nat.repr a.toNat := by
  obtain ⟨n, rfl⟩ := Int.eq_ofNat_of_zero_le ha
  rfl

theorem fileName_inj (ext : String) (a b a' b' : Int) (ha : 0 ≤ a) (hb : 0 ≤ b)
    (ha' : 0 ≤ a') (hb' : 0 ≤ b')
    (h : "chunk_" ++ toString a ++ "-" ++ toString b ++ ext
          = "chunk_" ++ toString a' ++ "-" ++ toString b' ++ ext) :
    a = a' ∧ b = b' := by
  rw [toString_int_nonneg a ha, toString_int_nonneg b hb, toString_int_nonneg a' ha',
    toString_int_nonneg b' hb'] at h
  have hd := congrArg String.data h
  simp only [String.data_append, List.append_assoc] at hd
  have hd1 := List.append_cancel_left hd
  have hd2 : (Nat.repr a.toNat).data ++ '-' :: (Nat.repr b.toNat).data
      = (Nat.repr a'.toNat).data ++ '-' :: (Nat.repr b'.toNat).data := by
    have e1 : ∀ x y : List Char, x ++ ("-".data ++ (y ++ ext.data)) = (x ++ '-' :: y) ++ ext.data := by
      intro x y; simp
    rw [e1, e1] at hd1
    exact List.append_cancel_right hd1
  obtain ⟨h1, h2⟩ := split_at_separator '-' _ _ _ _
    (fun hm => (repr_spec a.toNat).1 _ hm rfl) (fun hm => (repr_spec a'.toNat).1 _ hm rfl) hd2
  have ea : a.toNat = a'.toNat := by
    rw [← (repr_spec a.toNat).2, ← (repr_spec a'.toNat).2, h1]
  have eb : b.toNat = b'.toNat := by
    rw [← (repr_spec b.toNat).2, ← (repr_spec b'.toNat).2, h2]
  omega

theorem extScan_suffix (l rest acc : List Char) (hl : ∀ c ∈ l, c ≠ '.' ∧ c ≠ '/') :
    extScan (l ++ '.' :: rest) acc = '.' :: (l.reverse ++ acc) := by
  induction l generalizing acc with
  | nil => simp [extScan]
  | cons a l ih =>
    have ha := hl a (by simp)
    rw [List.cons_append]
    simp only [extScan, ha.1, ha.2, if_false]
    rw [ih (a :: acc) (fun c hc => hl c (List.mem_cons_of_mem _ hc))]
    simp

theorem filepathExt_suffix (stem e : String) (he : ∀ c ∈ e.data, c ≠ '.' ∧ c ≠ '/') :
    filepathExt (stem ++ "." ++ e) = "." ++ e := by
  apply String.ext
  have h1 : (stem ++ "." ++ e).data.reverse = e.data.reverse ++ '.' :: stem.data.reverse := by
    simp [String.data_append]
  have h2 := extScan_suffix e.data.reverse stem.data.reverse []
    (fun c hc => he c (List.mem_reverse.mp hc))
  show extScan (stem ++ "." ++ e).data.reverse [] = ("." ++ e).data
  rw [h1, h2]
  simp [String.data_append]

theorem goInt_trunc (o : ℚ → Int) (x : ℚ) (hx : 0 ≤ x) (hlt : x < 2 ^ 63) :
    0 ≤ goInt o x ∧ (goInt o x : ℚ) ≤ x ∧ x < (goInt o x : ℚ) + 1 := by
  refine ⟨goInt_nonneg o x hx hlt, ?_, ?_⟩
  · rw [goInt_of_nonneg o x hx hlt]; exact Int.floor_le x
  · rw [goInt_of_nonneg o x hx hlt]; exact Int.lt_floor_add_one x

theorem sorted_candidates_ge (res : List Silence) (c : ℚ) (hs : sortedFrom c res) :
    ∀ x ∈ candidatesFrom c res, c ≤ x.start ∧ c ≤ x.end_ := by
  induction res generalizing c with
  | nil => simp [candidatesFrom]
  | cons r rest ih =>
    obtain ⟨h1, h2, h3⟩ := hs
    intro x hx
    rw [candidatesFrom_cons, List.mem_cons] at hx
    rcases hx with rfl | hx
    · exact ⟨le_refl _, h1⟩
    · have h := ih r.End h3 x hx
      exact ⟨by linarith [h.1], by linarith [h.2]⟩

theorem candidates_lt (bound : ℚ) (res : List Silence) (c : ℚ) (hc : c < bound)
    (hr : ∀ r ∈ res, r.Start < bound ∧ r.End < bound) :
    ∀ x ∈ candidatesFrom c res, x.start < bound ∧ x.end_ < bound := by
  induction res generalizing c with
  | nil => simp [candidatesFrom]
  | cons r rest ih =>
    have hr0 := hr r (by simp)
    intro x hx
    rw [candidatesFrom_cons, List.mem_cons] at hx
    rcases hx with rfl | hx
    · exact ⟨hc, hr0.1⟩
    · exact ih r.End hr0.2 (fun q hq => hr q (List.mem_cons_of_mem _ hq)) x hx

theorem kept_pairwise (o : ℚ → Int) (res : List Silence) (minDur : Int) (hmin : 1 ≤ minDur)
    (c : ℚ) (hc : 0 ≤ c) (hs : sortedFrom c res) (hc2 : c < 2 ^ 63)
    (hr : ∀ r ∈ res, r.Start < 2 ^ 63 ∧ r.End < 2 ^ 63) :
    List.Pairwise (fun a b : Chunk => goInt o a.start < goInt o b.start)
      ((candidatesFrom c res).filter (fun x => decide (x.duration > (minDur : ℚ)))) := by
  induction res generalizing c with
  | nil => simp [candidatesFrom]
  | cons r rest ih =>
    obtain ⟨h1, h2, h3⟩ := hs
    have hr0 := hr r (by simp)
    have hrest : ∀ q ∈ rest, q.Start < 2 ^ 63 ∧ q.End < 2 ^ 63 :=
      fun q hq => hr q (List.mem_cons_of_mem _ hq)
    have hrec := ih r.End (by linarith) h3 hr0.2 hrest
    rw [candidatesFrom_cons]
    by_cases hd : r.Start - c > (minDur : ℚ)
    · rw [List.filter_cons_of_pos (by simpa using hd), List.pairwise_cons]
      refine ⟨?_, hrec⟩
      intro y hy
      have hy1 := List.mem_of_mem_filter hy
      have hy2 := (sorted_candidates_ge rest r.End h3 y hy1).1
      have hy3 := (candidates_lt (2 ^ 63) rest r.End hr0.2 hrest y hy1).1
      have hq : (1 : ℚ) ≤ (minDur : ℚ) := by exact_mod_cast hmin
      exact goInt_lt_of_add_one_le o c y.start hc (by linarith) hy3
    · rw [List.filter_cons_of_neg (by simpa using hd)]
      exact hrec

theorem keptChunks_nameKey_nodup (o : ℚ → Int) (res : List Silence) (minDur : Int)
    (hmin : 1 ≤ minDur) (hs : sortedFrom 0 res)
    (hr : ∀ r ∈ res, r.Start < 2 ^ 63 ∧ r.End < 2 ^ 63) :
    ((keptChunks minDur res).map (nameKey o)).Nodup := by
  have h := kept_pairwise o res minDur hmin 0 (le_refl _) hs (by positivity) hr
  rw [keptChunks_eq_filter, candidateSpans_eq]
  refine List.Pairwise.map (nameKey o) ?_ h
  intro a b hab heq
  have : goInt o a.start = goInt o b.start := congrArg Prod.fst heq
  omega

theorem keptChunks_names_nodup (o : ℚ → Int) (ext : String) (res : List Silence)
    (minDur : Int) (hmin : 1 ≤ minDur) (hs : sortedFrom 0 res)
    (hr : ∀ r ∈ res, r.Start < 2 ^ 63 ∧ r.End < 2 ^ 63) :
    ((keptChunks minDur res).map (fun c => chunkFileName o ext c.start c.end_)).Nodup := by
  have hkeys := keptChunks_nameKey_nodup o res minDur hmin hs hr
  have hmap : (keptChunks minDur res).map (fun c => chunkFileName o ext c.start c.end_)
      = ((keptChunks minDur res).map (nameKey o)).map
          (fun k => "chunk_" ++ toString k.1 ++ "-" ++ toString k.2 ++ ext) := by
    rw [List.map_map]
    rfl
  rw [hmap]
  refine List.Nodup.map_on ?_ hkeys
  have hnn : ∀ k ∈ (keptChunks minDur res).map (nameKey o), 0 ≤ k.1 ∧ 0 ≤ k.2 := by
    intro k hk
    obtain ⟨x, hx, rfl⟩ := List.mem_map.mp hk
    have hx1 := ((mem_keptChunks_iff minDur res x).mp hx).1
    have hx2 := sorted_candidates_ge res 0 hs x hx1
    have hx3 := candidates_lt (2 ^ 63) res 0 (by positivity) hr x hx1
    exact ⟨goInt_nonneg o _ hx2.1 hx3.1, goInt_nonneg o _ hx2.2 hx3.2⟩
  intro k hk k' hk' heq
  have h := fileName_inj ext k.1 k.2 k'.1 k'.2 (hnn k hk).1 (hnn k hk).2 (hnn k' hk').1
    (hnn k' hk').2 heq
  exact Prod.ext h.1 h.2

theorem amd64_big (x : ℚ) (hx : 2 ^ 63 ≤ x) :
    goInt amd64OutOfRange x = -9223372036854775808 := by
  rw [goInt_out_of_range _ _ hx]
  rfl

/-! ## Output naming -/

/-- C9 (as amended): for a span whose timestamps are non-negative and below
`2^63`, the range of the 64-bit `int`, the output path is
`filepath.Join(outDir, "chunk_<a>-<b><ext>")`, where `a` and `b` are the
timestamps with the fraction dropped (`a ≤ start < a + 1`, likewise `b`),
printed as unsigned decimal numerals, and `<ext>` is `filepath.Ext` of the
input, which for a path `stem.e` is `.e` unchanged; `chunkAudioSegment` returns
this path when nothing fails; two inputs agreeing on the output directory, the
extension and the two converted integers give the same path; and the span
`(12.7, 45.2)` of `clip.wav` is named `chunk_12-45.wav`.  All of this holds
whatever the conversion yields outside the range. -/
theorem output_naming (outOfRange : ℚ → Int) (join : String → String → String)
    (inputFile outDir : String) (start end_ : ℚ) (hs : 0 ≤ start) (he : 0 ≤ end_)
    (hs2 : start < 2 ^ 63) (he2 : end_ < 2 ^ 63) :
    outputPattern outOfRange join inputFile outDir start end_
      = join outDir ("chunk_" ++ toString (truncInt start) ++ "-" ++ toString (truncInt end_)
          ++ filepathExt inputFile) ∧
    (goInt outOfRange start = truncInt start ∧ goInt outOfRange end_ = truncInt end_) ∧
    (0 ≤ truncInt start ∧ (truncInt start : ℚ) ≤ start ∧ start < (truncInt start : ℚ) + 1) ∧
    (0 ≤ truncInt end_ ∧ (truncInt end_ : ℚ) ≤ end_ ∧ end_ < (truncInt end_ : ℚ) + 1) ∧
    (digitsValue (toString (goInt outOfRange start)).data = (truncInt start).toNat ∧
      digitsValue (toString (goInt outOfRange end_)).data = (truncInt end_).toNat) ∧
    (∀ stem e : String, (∀ c ∈ e.data, c ≠ '.' ∧ c ≠ '/') → inputFile = stem ++ "." ++ e →
        filepathExt inputFile = "." ++ e) ∧
    chunkAudioSegment outOfRange join none none inputFile outDir start end_
      = Except.ok (outputPattern outOfRange join inputFile outDir start end_) ∧
    (∀ (inputFile' : String) (start' end' : ℚ),
        filepathExt inputFile' = filepathExt inputFile →
        goInt outOfRange start' = goInt outOfRange start →
        goInt outOfRange end' = goInt outOfRange end_ →
        outputPattern outOfRange join inputFile' outDir start' end'
          = outputPattern outOfRange join inputFile outDir start end_) ∧
    outputPattern outOfRange join "clip.wav" outDir (127 / 10) (226 / 5)
      = join outDir "chunk_12-45.wav" := by
  have hfs : truncInt start = ⌊start⌋ := by simp [truncInt, hs]
  have hfe : truncInt end_ = ⌊end_⌋ := by simp [truncInt, he]
  have hgs : goInt outOfRange start = truncInt start := by
    rw [goInt_of_nonneg outOfRange start hs hs2, hfs]
  have hge : goInt outOfRange end_ = truncInt end_ := by
    rw [goInt_of_nonneg outOfRange end_ he he2, hfe]
  have hts := goInt_trunc outOfRange start hs hs2
  have hte := goInt_trunc outOfRange end_ he he2
  rw [hgs] at hts
  rw [hge] at hte
  refine ⟨?_, ⟨hgs, hge⟩, hts, hte, ⟨?_, ?_⟩, ?_, rfl, ?_, ?_⟩
  · simp only [outputPattern, chunkFileName, hgs, hge]
  · rw [hgs, toString_int_nonneg _ hts.1]; exact (repr_spec _).2
  · rw [hge, toString_int_nonneg _ hte.1]; exact (repr_spec _).2
  · intro stem e hne hfile
    rw [hfile]; exact filepathExt_suffix stem e hne
  · intro inputFile' start' end' h1 h2 h3
    simp only [outputPattern, chunkFileName, h1, h2, h3]
  · have h12 : goInt outOfRange (127 / 10) = 12 := by
      rw [goInt_of_nonneg _ _ (by norm_num) (by norm_num), Int.floor_eq_iff]; norm_num
    have h45 : goInt outOfRange (226 / 5) = 45 := by
      rw [goInt_of_nonneg _ _ (by norm_num) (by norm_num), Int.floor_eq_iff]; norm_num
    have hext : filepathExt "clip.wav" = ".wav" := by decide
    simp only [outputPattern, chunkFileName, h12, h45, hext]
    congr 1

/-- Scenario D run through `output_naming` with the amd64 conversion and a join
that puts a slash between directory and name: the span `(12.7, 45.2)` of
`clip.wav` goes to `out/chunk_12-45.wav`. -/
theorem output_naming_witness :
    outputPattern amd64OutOfRange (fun d n => d ++ "/" ++ n) "clip.wav" "out" (127 / 10)
        (226 / 5)
      = "out/chunk_12-45.wav" :=
  (output_naming amd64OutOfRange (fun d n => d ++ "/" ++ n) "clip.wav" "out" (127 / 10)
    (226 / 5) (by norm_num) (by norm_num) (by norm_num) (by norm_num)).2.2.2.2.2.2.2.2

/-- C9 as stated fails beyond the range of `int`: on amd64 the span
`(1e19, 2e19)` of `clip.wav`, whose timestamps are non-negative, is named
`chunk_-9223372036854775808--9223372036854775808.wav`; the integer in the name
is not the truncated start. -/
theorem output_naming_counterexample :
    chunkFileName amd64OutOfRange (filepathExt "clip.wav") (10 ^ 19) (2 * 10 ^ 19)
      = "chunk_-9223372036854775808--9223372036854775808.wav"
    ∧ (0 : ℚ) ≤ 10 ^ 19
    ∧ truncInt (10 ^ 19) = 10000000000000000000
    ∧ goInt amd64OutOfRange (10 ^ 19) ≠ truncInt (10 ^ 19) := by
  have h1 : goInt amd64OutOfRange (10 ^ 19) = -9223372036854775808 :=
    amd64_big _ (by norm_num)
  have h2 : goInt amd64OutOfRange (2 * 10 ^ 19) = -9223372036854775808 :=
    amd64_big _ (by norm_num)
  have hext : filepathExt "clip.wav" = ".wav" := by decide
  have ht : truncInt (10 ^ 19) = 10000000000000000000 := by
    have h0 : (0 : ℚ) ≤ 10 ^ 19 := by norm_num
    simp only [truncInt, h0, if_true]
    rw [Int.floor_eq_iff]; norm_num
  refine ⟨?_, by norm_num, ht, ?_⟩
  · simp only [chunkFileName, h1, h2, hext]
    decide
  · rw [h1, ht]; decide

/-- C10 (as amended): for `minDur ≥ 1` and sorted, non-overlapping silence
intervals whose timestamps are non-negative and below `2^63`, the range of the
64-bit `int`, the kept spans of one run have pairwise different integer pairs
`(int(start), int(end))`, hence pairwise different file names, and pairwise
different output paths whenever `filepath.Join` does not merge two chunk names
of a directory; this holds whatever the conversion yields outside the range.
The bound on `minDur` is tight: for `minDur = 0` the sorted silences
`(0.2, 0.3)` and `(0.6, 0.7)` give two kept spans with the same name. -/
theorem no_name_collision (outOfRange : ℚ → Int) (join : String → String → String)
    (inputFile outDir : String) (res : List Silence) (minDur : Int) (hmin : 1 ≤ minDur)
    (hsorted : sortedFrom 0 res) (hrange : ∀ r ∈ res, r.Start < 2 ^ 63 ∧ r.End < 2 ^ 63) :
    ((keptChunks minDur res).map (nameKey outOfRange)).Nodup ∧
    ((keptChunks minDur res).map
        (fun c => chunkFileName outOfRange (filepathExt inputFile) c.start c.end_)).Nodup ∧
    ((∀ s e s' e' : ℚ,
          join outDir (chunkFileName outOfRange (filepathExt inputFile) s e)
            = join outDir (chunkFileName outOfRange (filepathExt inputFile) s' e') →
          chunkFileName outOfRange (filepathExt inputFile) s e
            = chunkFileName outOfRange (filepathExt inputFile) s' e') →
        ((keptChunks minDur res).map
          (fun c => outputPattern outOfRange join inputFile outDir c.start c.end_)).Nodup) ∧
    (sortedFrom 0 [⟨1 / 5, 3 / 10, 1 / 10⟩, ⟨3 / 5, 7 / 10, 1 / 10⟩] ∧
      keptChunks 0 [⟨1 / 5, 3 / 10, 1 / 10⟩, ⟨3 / 5, 7 / 10, 1 / 10⟩]
        = [⟨0, 1 / 5, 1 / 5⟩, ⟨3 / 10, 3 / 5, 3 / 10⟩] ∧
      chunkFileName outOfRange (filepathExt inputFile) 0 (1 / 5)
        = chunkFileName outOfRange (filepathExt inputFile) (3 / 10) (3 / 5)) := by
  have hnames := keptChunks_names_nodup outOfRange (filepathExt inputFile) res minDur hmin
    hsorted hrange
  refine ⟨keptChunks_nameKey_nodup outOfRange res minDur hmin hsorted hrange, hnames,
    ?_, ?_, ?_, ?_⟩
  · intro hjoin
    have hmap : (keptChunks minDur res).map
          (fun c => outputPattern outOfRange join inputFile outDir c.start c.end_)
        = ((keptChunks minDur res).map
            (fun c => chunkFileName outOfRange (filepathExt inputFile) c.start c.end_)).map
              (join outDir) := by
      rw [List.map_map]
      rfl
    rw [hmap]
    refine List.Nodup.map_on ?_ hnames
    intro n hn n' hn' heq
    obtain ⟨x, _, rfl⟩ := List.mem_map.mp hn
    obtain ⟨y, _, rfl⟩ := List.mem_map.mp hn'
    exact hjoin _ _ _ _ heq
  · simp only [sortedFrom]
    norm_num
  · rw [keptChunks_eq_filter]
    simp [candidateSpans, List.filter_cons]
    norm_num
  · have h0 : goInt outOfRange 0 = 0 := by
      rw [goInt_of_nonneg _ _ (le_refl _) (by norm_num)]; simp
    have h1 : goInt outOfRange (1 / 5) = 0 := by
      rw [goInt_of_nonneg _ _ (by norm_num) (by norm_num), Int.floor_eq_iff]; norm_num
    have h2 : goInt outOfRange (3 / 10) = 0 := by
      rw [goInt_of_nonneg _ _ (by norm_num) (by norm_num), Int.floor_eq_iff]; norm_num
    have h3 : goInt outOfRange (3 / 5) = 0 := by
      rw [goInt_of_nonneg _ _ (by norm_num) (by norm_num), Int.floor_eq_iff]; norm_num
    simp only [chunkFileName, h0, h1, h2, h3]

/-- Three sorted silences run through `no_name_collision` with `minDur = 1` and
the amd64 conversion: the file names of the kept spans are pairwise
different. -/
theorem no_name_collision_witness :
    ((keptChunks 1 [⟨2, 5, 3⟩, ⟨10, 11, 1⟩, ⟨15, 16, 1⟩]).map
        (fun c => chunkFileName amd64OutOfRange (filepathExt "clip.wav") c.start c.end_)).Nodup :=
  (no_name_collision amd64OutOfRange (fun d n => d ++ "/" ++ n) "clip.wav" "out"
    [⟨2, 5, 3⟩, ⟨10, 11, 1⟩, ⟨15, 16, 1⟩] 1 (by decide)
    (by simp only [sortedFrom]; norm_num)
    (by
      intro r hr
      simp only [List.mem_cons, List.mem_singleton, List.not_mem_nil, or_false] at hr
      rcases hr with rfl | rfl | rfl <;> norm_num)).2.1

/-- C10 as stated fails beyond the range of `int`: on amd64, with `minDur = 1`
and the sorted silences `(1e19, 2e19)`, `(3e19, 4e19)`, `(5e19, 6e19)`, the
three kept spans are `[0, 1e19)`, `[2e19, 3e19)`, `[4e19, 5e19)`, and the last
two get the same integer pair and the same file name. -/
theorem no_name_collision_counterexample :
    sortedFrom 0 [⟨10 ^ 19, 2 * 10 ^ 19, 10 ^ 19⟩, ⟨3 * 10 ^ 19, 4 * 10 ^ 19, 10 ^ 19⟩,
        ⟨5 * 10 ^ 19, 6 * 10 ^ 19, 10 ^ 19⟩]
    ∧ keptChunks 1 [⟨10 ^ 19, 2 * 10 ^ 19, 10 ^ 19⟩, ⟨3 * 10 ^ 19, 4 * 10 ^ 19, 10 ^ 19⟩,
        ⟨5 * 10 ^ 19, 6 * 10 ^ 19, 10 ^ 19⟩]
      = [⟨0, 10 ^ 19, 10 ^ 19⟩, ⟨2 * 10 ^ 19, 3 * 10 ^ 19, 10 ^ 19⟩,
          ⟨4 * 10 ^ 19, 5 * 10 ^ 19, 10 ^ 19⟩]
    ∧ nameKey amd64OutOfRange ⟨2 * 10 ^ 19, 3 * 10 ^ 19, 10 ^ 19⟩
      = nameKey amd64OutOfRange ⟨4 * 10 ^ 19, 5 * 10 ^ 19, 10 ^ 19⟩
    ∧ chunkFileName amd64OutOfRange (filepathExt "clip.wav") (2 * 10 ^ 19) (3 * 10 ^ 19)
      = "chunk_-9223372036854775808--9223372036854775808.wav"
    ∧ chunkFileName amd64OutOfRange (filepathExt "clip.wav") (4 * 10 ^ 19) (5 * 10 ^ 19)
      = "chunk_-9223372036854775808--9223372036854775808.wav"
    ∧ ¬ ((keptChunks 1 [⟨10 ^ 19, 2 * 10 ^ 19, 10 ^ 19⟩, ⟨3 * 10 ^ 19, 4 * 10 ^ 19, 10 ^ 19⟩,
          ⟨5 * 10 ^ 19, 6 * 10 ^ 19, 10 ^ 19⟩]).map
        (fun c => chunkFileName amd64OutOfRange (filepathExt "clip.wav") c.start c.end_)).Nodup := by
  have h2 : goInt amd64OutOfRange (2 * 10 ^ 19) = -9223372036854775808 :=
    amd64_big _ (by norm_num)
  have h3 : goInt amd64OutOfRange (3 * 10 ^ 19) = -9223372036854775808 :=
    amd64_big _ (by norm_num)
  have h4 : goInt amd64OutOfRange (4 * 10 ^ 19) = -9223372036854775808 :=
    amd64_big _ (by norm_num)
  have h5 : goInt amd64OutOfRange (5 * 10 ^ 19) = -9223372036854775808 :=
    amd64_big _ (by norm_num)
  have hext : filepathExt "clip.wav" = ".wav" := by decide
  have hkept : keptChunks 1 [⟨10 ^ 19, 2 * 10 ^ 19, 10 ^ 19⟩,
        ⟨3 * 10 ^ 19, 4 * 10 ^ 19, 10 ^ 19⟩, ⟨5 * 10 ^ 19, 6 * 10 ^ 19, 10 ^ 19⟩]
      = [⟨0, 10 ^ 19, 10 ^ 19⟩, ⟨2 * 10 ^ 19, 3 * 10 ^ 19, 10 ^ 19⟩,
          ⟨4 * 10 ^ 19, 5 * 10 ^ 19, 10 ^ 19⟩] := by
    rw [keptChunks_eq_filter]
    simp [candidateSpans, List.filter_cons]
    norm_num
  refine ⟨?_, hkept, ?_, ?_, ?_, ?_⟩
  · simp only [sortedFrom]
    norm_num
  · simp only [nameKey, h2, h3, h4, h5]
  · simp only [chunkFileName, h2, h3, hext]
    decide
  · simp only [chunkFileName, h4, h5, hext]
    decide
  · rw [hkept]
    simp only [List.map_cons, List.map_nil, chunkFileName, h2, h3, h4, h5]
    simp

end AudioChunker
